import Mathlib

/-!
Verification of the corpus parser and message segmenter of `poll_bot.py`.

Text is modelled as a list of Unicode code points (`List Nat`).  The
per-character operations of the source (Python `str.lower`, `str.strip`,
`str.splitlines`, `','`-splitting) are embedded over that representation,
restricted to the character classes that actually occur: `pyLower` covers
ASCII letters and the Cyrillic block used by the hard-coded marker strings,
`isSpace` is Python's whitespace class and `isLineBreak` Python's
`splitlines` boundary class.
-/

/-- Texts are lists of Unicode code points. -/
abbrev Str := List Nat

/-- Python whitespace class, as used by `str.strip()`. -/
def isSpace (c : Nat) : Bool :=
  (9 ≤ c && c ≤ 13) || c == 32 || (28 ≤ c && c ≤ 31) || c == 133 || c == 160 ||
  c == 5760 || (8192 ≤ c && c ≤ 8202) || c == 8232 || c == 8233 || c == 8239 ||
  c == 8287 || c == 12288

/-- Python line-boundary class, as used by `str.splitlines()`. -/
def isLineBreak (c : Nat) : Bool :=
  c == 10 || c == 11 || c == 12 || c == 13 || (28 ≤ c && c ≤ 30) || c == 133 ||
  c == 8232 || c == 8233

/-- Python `str.lower`, restricted to ASCII letters and the Cyrillic
letters (U+0410 to U+044F plus Ё) that the marker strings use; every other
code point is left unchanged. -/
def pyLower (c : Nat) : Nat :=
  if 65 ≤ c ∧ c ≤ 90 then c + 32
  else if 1040 ≤ c ∧ c ≤ 1071 then c + 32
  else if c = 1025 then 1105
  else c

/-- Python `str.strip()`: drop whitespace from both ends. -/
def strip (l : Str) : Str :=
  ((l.dropWhile isSpace).reverse.dropWhile isSpace).reverse

/-- Python `a.startswith(p)`, here `startsWith p a`. -/
def startsWith : Str → Str → Bool
  | [], _ => true
  | _ :: _, [] => false
  | p :: ps, c :: cs => p == c && startsWith ps cs

/-- Helper for line splitting: extend the first line of the split with one
more leading character. -/
def consHead (c : Nat) : List Str → List Str
  | [] => [[c]]
  | l :: ls => (c :: l) :: ls

/-- Python `str.splitlines(keepends=True)`: cut after every line boundary,
treating a `"\r\n"` pair as a single boundary, and keep the boundary
characters on the line they end. -/
def splitlinesKeepends : Str → List Str
  | [] => []
  | 13 :: 10 :: rest => [13, 10] :: splitlinesKeepends rest
  | 13 :: rest => [13] :: splitlinesKeepends rest
  | c :: rest =>
    if isLineBreak c then [c] :: splitlinesKeepends rest
    else consHead c (splitlinesKeepends rest)

/-- Remove one trailing line boundary (a `"\r\n"` pair or a single
boundary character) from a line. -/
def removeEol (l : Str) : Str :=
  match l.reverse with
  | [] => l
  | c :: r =>
    if isLineBreak c then
      match r with
      | c2 :: r2 => if c = 10 ∧ c2 = 13 then r2.reverse else r.reverse
      | [] => r.reverse
    else l

/-- Python `str.splitlines()` (without keepends). -/
def splitlinesNoKeep (t : Str) : List Str :=
  (splitlinesKeepends t).map removeEol

/-- Python newline-join of a list of lines. -/
def joinNL : List Str → Str
  | [] => []
  | [l] => l
  | l :: l2 :: ls => l ++ 10 :: joinNL (l2 :: ls)

/-- Fuel-driven worker for `chunksOf`; the fuel is an upper bound on the
number of slices and only exists to make the recursion structural. -/
def chunksOfFuel (n : Nat) : Nat → Str → List Str
  | _, [] => []
  | 0, _ => []
  | fuel + 1, c :: rest => ((c :: rest).take n) :: chunksOfFuel n fuel (rest.drop (n - 1))

/-- The consecutive slices `l[i:i+n]` for `i = 0, n, 2n, ...`, as produced
by `range(0, len(l), n)` in the source (meaningful for `0 < n`). -/
def chunksOf (n : Nat) (l : Str) : List Str :=
  chunksOfFuel n l.length l

/-- Codes of the lowercase marker string for an author line. -/
def authorPre1 : Str := [1072, 1074, 1090, 1086, 1088, 58]

/-- Codes of the lowercase feminine-form marker string for an author line. -/
def authorPre2 : Str := [1072, 1074, 1090, 1086, 1088, 1082, 1072, 58]

/-- Codes of the question marker string (capitalised, no colon). -/
def questionPre : Str := [1042, 1086, 1087, 1088, 1086, 1089]

/-- Codes of the answer marker string (capitalised, with colon). -/
def answerPre : Str := [1054, 1090, 1074, 1077, 1090, 58]

/-- Line 321 of the source: `line.lower().startswith("автор:") or
line.lower().startswith("авторка:")`. -/
def isAuthorMarker (line : Str) : Bool :=
  startsWith authorPre1 (line.map pyLower) || startsWith authorPre2 (line.map pyLower)

/-- Line 342 of the source: `line.strip().startswith("Вопрос")`. -/
def isQuestionStart (line : Str) : Bool :=
  startsWith questionPre (strip line)

/-- Line 350 of the source: `line.strip().startswith("Ответ:")`. -/
def isAnswerMarker (line : Str) : Bool :=
  startsWith answerPre (strip line)

/-- Errors raised by the core (`ValueError`s in the source, message-level
failures for the choice command). -/
inductive PollError where
  | EmptyCorpus
  | BlockTooLarge
  | InsufficientInput
deriving DecidableEq

/-- State of the block-accumulation loop of `get_random_question_block`. -/
structure ParseState where
  blocks : List Str
  current : List Str
deriving DecidableEq

/-- One iteration of the loop at lines 319-325 of the source: append the
line to the buffer and, on an author marker, close the buffer off as a
block (kept only if it strips to something non-empty). -/
def parseStep (st : ParseState) (line : Str) : ParseState :=
  let cur := st.current ++ [line]
  if isAuthorMarker line then
    { blocks := st.blocks ++ (if strip (joinNL cur) = [] then [] else [strip (joinNL cur)]),
      current := [] }
  else
    { blocks := st.blocks, current := cur }

/-- Lines 317-329 of the source: split the corpus into blocks at author
marker lines, appending any non-empty trailing remainder. -/
def parseBlocks (content : Str) : List Str :=
  let st := (splitlinesNoKeep content).foldl parseStep ⟨[], []⟩
  st.blocks ++ (if strip (joinNL st.current) = [] then [] else [strip (joinNL st.current)])

/-- Lines 331-332 of the source: raise when no blocks were found. -/
def getQuestionBlocks (content : Str) : Except PollError (List Str) :=
  let bs := parseBlocks content
  if bs = [] then .error .EmptyCorpus else .ok bs

/-- Lines 334-336 of the source with the random draw made explicit: the
selected index is a parameter, and the selected block is rejected when it
exceeds 10000 characters. -/
def selectBlock (blocks : List Str) (i : Fin blocks.length) : Except PollError Str :=
  let block := blocks.get i
  if 10000 < block.length then .error .BlockTooLarge else .ok block

/-- First index of a line satisfying `p`, as the `enumerate` loops of the
source compute it. -/
def firstIdx (p : Str → Bool) : List Str → Option Nat
  | [] => none
  | l :: ls => if p l then some 0 else (firstIdx p ls).map (· + 1)

/-- Lines 337-346 of the source: the block's lines with any preamble
before the first question-marker line removed. -/
def questionLines (block : Str) : List Str :=
  let ls := splitlinesNoKeep block
  match firstIdx isQuestionStart ls with
  | some i => ls.drop i
  | none => ls

/-- Lines 348-359 of the source: split the (preamble-trimmed) block at the
first answer-marker line into the visible question text and the spoiler
text. -/
def splitQuestion (block : Str) : Str × Str :=
  let ls := questionLines block
  match firstIdx isAnswerMarker ls with
  | none => (strip (joinNL ls), [])
  | some j => (strip (joinNL (ls.take j)), strip (joinNL (ls.drop j)))

/-- State of the greedy line-packing loop of `split_message_chunks`. -/
structure SegState where
  chunks : List Str
  current : List Str
  current_len : Nat
deriving DecidableEq

/-- One iteration of the loop at lines 289-305 of the source. -/
def segStep (max_len : Nat) (st : SegState) (line : Str) : SegState :=
  if max_len < line.length then
    { chunks := (if st.current = [] then st.chunks else st.chunks ++ [strip st.current.flatten])
        ++ (chunksOf max_len line).map strip,
      current := [], current_len := 0 }
  else if max_len < st.current_len + line.length then
    { chunks := st.chunks ++ [strip st.current.flatten],
      current := [line], current_len := line.length }
  else
    { chunks := st.chunks, current := st.current ++ [line],
      current_len := st.current_len + line.length }

/-- Lines 281-310 of the source: `split_message_chunks`. -/
def split_message_chunks (text : Str) (max_len : Nat) : List Str :=
  if text.length ≤ max_len then [text]
  else
    let st := (splitlinesKeepends text).foldl (segStep max_len) ⟨[], [], 0⟩
    let chunks :=
      if st.current = [] then st.chunks else st.chunks ++ [strip st.current.flatten]
    chunks.filter (fun c => !c.isEmpty)

/-- Python `args.split(',')`. -/
def splitComma : Str → List Str
  | [] => [[]]
  | c :: rest => if c == 44 then [] :: splitComma rest else consHead c (splitComma rest)

/-- Line 195 of the source: split on commas, strip each name, keep the
non-empty ones. -/
def cleanNames (input : Str) : List Str :=
  ((splitComma input).map strip).filter (fun n => !n.isEmpty)

/-- Lines 191-205 of the source with the random draw made explicit as an
index parameter: fail when fewer than two cleaned names remain, otherwise
return the drawn name. -/
def choiceResult (args : Str) (i : Nat) : Except PollError Str :=
  let names := cleanNames (strip args)
  if h : names.length < 2 then .error .InsufficientInput
  else .ok (names.get ⟨i % names.length, Nat.mod_lt i (by omega)⟩)

/-- The lines of a corpus that follow its last author-marker line (all of
them when no marker occurs); the parse loop's buffer holds exactly these
lines when the scan ends. -/
def afterLastMarker (ls : List Str) : List Str :=
  (ls.reverse.takeWhile (fun l => !isAuthorMarker l)).reverse

/-! Basic facts about the character classes. -/

theorem isLineBreak_isSpace {c : Nat} (h : isLineBreak c = true) : isSpace c = true := by
  simp only [isLineBreak, Bool.or_eq_true, beq_iff_eq, Bool.and_eq_true,
    decide_eq_true_eq] at h
  simp only [isSpace, Bool.or_eq_true, beq_iff_eq, Bool.and_eq_true, decide_eq_true_eq]
  omega

theorem pyLower_pyLower (c : Nat) : pyLower (pyLower c) = pyLower c := by
  unfold pyLower
  split_ifs <;> omega

theorem pyLower_eq_author_head {c : Nat} (h : pyLower c = 1072) : c = 1072 ∨ c = 1040 := by
  unfold pyLower at h
  split_ifs at h <;> omega

/-! Facts about `strip`. -/

theorem dropWhile_dropWhile (p : Nat → Bool) (l : Str) :
    (l.dropWhile p).dropWhile p = l.dropWhile p := by
  induction l with
  | nil => rfl
  | cons c rest ih =>
    rw [List.dropWhile_cons]
    split
    · exact ih
    · rw [List.dropWhile_cons]
      simp [*]

theorem dropWhile_head_false (p : Nat → Bool) :
    ∀ {l : Str} {c : Nat} {t : Str}, l.dropWhile p = c :: t → p c = false := by
  intro l
  induction l with
  | nil => intro c t h; simp at h
  | cons a rest ih =>
    intro c t h
    rw [List.dropWhile_cons] at h
    split at h
    · exact ih h
    · cases h
      simp_all

theorem strip_sublist (l : Str) : (strip l).Sublist l := by
  unfold strip
  have h1 : ((l.dropWhile isSpace).reverse.dropWhile isSpace).Sublist
      (l.dropWhile isSpace).reverse := List.dropWhile_sublist _
  have h2 := List.reverse_sublist.mpr h1
  rw [List.reverse_reverse] at h2
  exact h2.trans (List.dropWhile_sublist _)

theorem strip_length_le (l : Str) : (strip l).length ≤ l.length :=
  (strip_sublist l).length_le

theorem filter_not_dropWhile (p : Nat → Bool) (l : Str) :
    (l.dropWhile p).filter (fun c => !p c) = l.filter (fun c => !p c) := by
  induction l with
  | nil => rfl
  | cons c rest ih =>
    rw [List.dropWhile_cons]
    split
    · rw [ih, List.filter_cons]
      simp [*]
    · rfl

theorem filter_strip (l : Str) :
    (strip l).filter (fun c => !isSpace c) = l.filter (fun c => !isSpace c) := by
  unfold strip
  rw [List.filter_reverse, filter_not_dropWhile, List.filter_reverse,
    List.reverse_reverse, filter_not_dropWhile]

theorem strip_eq_nil_iff {l : Str} : strip l = [] ↔ ∀ c ∈ l, isSpace c = true := by
  constructor
  · intro h c hc
    have hf := filter_strip l
    rw [h] at hf
    have := (List.filter_eq_nil_iff.mp hf.symm) c hc
    simpa using this
  · intro h
    unfold strip
    have h1 : l.dropWhile isSpace = [] := by
      rw [List.dropWhile_eq_nil_iff]
      intro x hx
      exact h x hx
    rw [h1]
    rfl

theorem strip_ne_nil_of_mem {l : Str} {c : Nat} (hc : c ∈ l) (hs : isSpace c = false) :
    strip l ≠ [] := by
  intro h
  have := strip_eq_nil_iff.mp h c hc
  rw [hs] at this
  exact Bool.false_ne_true this

theorem strip_head_space_false {l : Str} {c : Nat} {t : Str} (hsl : strip l = c :: t) :
    isSpace c = false := by
  obtain ⟨u, hu⟩ := List.dropWhile_suffix (l := (l.dropWhile isSpace).reverse) isSpace
  have hpre := congrArg List.reverse hu
  rw [List.reverse_append, List.reverse_reverse] at hpre
  have hpre2 : strip l ++ u.reverse = l.dropWhile isSpace := hpre
  rw [hsl, List.cons_append] at hpre2
  exact dropWhile_head_false isSpace hpre2.symm

theorem dropWhile_strip (l : Str) : (strip l).dropWhile isSpace = strip l := by
  rcases hsl : strip l with _ | ⟨c, t⟩
  · rfl
  · have hc := strip_head_space_false hsl
    rw [List.dropWhile_cons, hc]
    simp

theorem strip_strip (l : Str) : strip (strip l) = strip l := by
  have h2 : (strip l).reverse = (l.dropWhile isSpace).reverse.dropWhile isSpace := by
    rw [strip, List.reverse_reverse]
  show (((strip l).dropWhile isSpace).reverse.dropWhile isSpace).reverse = strip l
  rw [dropWhile_strip, h2, dropWhile_dropWhile, ← h2, List.reverse_reverse]

/-! Facts about `startsWith`. -/

theorem startsWith_cons {p : Nat} {ps l : Str} (h : startsWith (p :: ps) l = true) :
    ∃ t, l = p :: t ∧ startsWith ps t = true := by
  cases l with
  | nil => simp [startsWith] at h
  | cons c cs =>
    rw [startsWith, Bool.and_eq_true, beq_iff_eq] at h
    exact ⟨cs, by rw [h.1], h.2⟩

/-! Structure of `splitlinesKeepends`. -/

theorem consHead_flatten (c : Nat) (L : List Str) :
    (consHead c L).flatten = c :: L.flatten := by
  cases L <;> simp [consHead]

theorem splitlinesKeepends_cons13 {rest : Str} (h10 : ∀ r, rest ≠ 10 :: r) :
    splitlinesKeepends (13 :: rest) = [13] :: splitlinesKeepends rest := by
  rw [splitlinesKeepends]
  exact fun r hr => h10 r hr

theorem splitlinesKeepends_cons_brk {c : Nat} {rest : Str}
    (h13 : c ≠ 13) (hbrk : isLineBreak c = true) :
    splitlinesKeepends (c :: rest) = [c] :: splitlinesKeepends rest := by
  rw [splitlinesKeepends]
  · rw [if_pos hbrk]
  · exact fun r hc => absurd hc h13
  · exact fun hc => h13 hc

theorem splitlinesKeepends_cons_chr {c : Nat} {rest : Str}
    (h13 : c ≠ 13) (hbrk : isLineBreak c = false) :
    splitlinesKeepends (c :: rest) = consHead c (splitlinesKeepends rest) := by
  rw [splitlinesKeepends]
  · rw [if_neg (by simp [hbrk])]
  · exact fun r hc => absurd hc h13
  · exact fun hc => h13 hc

theorem flatten_splitlinesKeepends (t : Str) : (splitlinesKeepends t).flatten = t := by
  induction t using splitlinesKeepends.induct with
  | case1 => rfl
  | case2 rest ih => simp [splitlinesKeepends, ih]
  | case3 rest h10 ih =>
    rw [splitlinesKeepends_cons13 (fun r hr => h10 r hr)]
    simp [ih]
  | case4 c rest hne h13 hbrk ih =>
    rw [splitlinesKeepends_cons_brk (fun hc => h13 hc) hbrk]
    simp [ih]
  | case5 c rest hne h13 hbrk ih =>
    rw [splitlinesKeepends_cons_chr (fun hc => h13 hc) (by simpa using hbrk)]
    rw [consHead_flatten, ih]

theorem mem_of_mem_splitlinesKeepends {t l : Str} {c : Nat}
    (hl : l ∈ splitlinesKeepends t) (hc : c ∈ l) : c ∈ t := by
  rw [← flatten_splitlinesKeepends t]
  exact List.mem_flatten.mpr ⟨l, hl, hc⟩

/-! Facts about `removeEol`. -/

theorem removeEol_cases (l : Str) :
    removeEol l = l ∨
    (∃ r : Str, l = r ++ [13, 10] ∧ removeEol l = r) ∨
    (∃ (r : Str) (c : Nat), isLineBreak c = true ∧ l = r ++ [c] ∧ removeEol l = r) := by
  rcases hrev : l.reverse with _ | ⟨c, r⟩
  · left
    simp [removeEol, hrev]
  · have hl : l = r.reverse ++ [c] := by
      rw [← List.reverse_reverse l, hrev]
      simp
    by_cases hbc : isLineBreak c = true
    · rcases r with _ | ⟨c2, r2⟩
      · right; right
        exact ⟨[], c, hbc, by simpa using hl, by simp [removeEol, hrev, hbc]⟩
      · by_cases h1013 : c = 10 ∧ c2 = 13
        · obtain ⟨hc10, hc13⟩ := h1013
          subst hc10
          subst hc13
          right; left
          refine ⟨r2.reverse, ?_, ?_⟩
          · rw [hl]
            simp
          · simp [removeEol, hrev, isLineBreak]
        · right; right
          refine ⟨(c2 :: r2).reverse, c, hbc, hl, ?_⟩
          simp [removeEol, hrev, hbc, h1013]
    · left
      simp [removeEol, hrev, hbc]

theorem filter_removeEol (p : Nat → Bool) (hbrk : ∀ c, isLineBreak c = true → p c = false)
    (l : Str) : (removeEol l).filter p = l.filter p := by
  rcases removeEol_cases l with h | ⟨r, hl, hr⟩ | ⟨r, c, hc, hl, hr⟩
  · rw [h]
  · rw [hr, hl]
    simp [List.filter_append, hbrk 13 (by decide), hbrk 10 (by decide)]
  · rw [hr, hl]
    simp [List.filter_append, hbrk c hc]

theorem removeEol_sublist (l : Str) : (removeEol l).Sublist l := by
  rcases removeEol_cases l with h | ⟨r, hl, hr⟩ | ⟨r, c, hc, hl, hr⟩
  · rw [h]
  · rw [hr, hl]
    exact List.sublist_append_left _ _
  · rw [hr, hl]
    exact List.sublist_append_left _ _

theorem mem_of_mem_splitlinesNoKeep {t l : Str} {c : Nat}
    (hl : l ∈ splitlinesNoKeep t) (hc : c ∈ l) : c ∈ t := by
  rw [splitlinesNoKeep] at hl
  obtain ⟨l0, hl0, rfl⟩ := List.mem_map.mp hl
  exact mem_of_mem_splitlinesKeepends hl0 ((removeEol_sublist l0).mem hc)

/-! Facts about `joinNL` and `flatten`. -/

theorem mem_joinNL {L : List Str} {l : Str} {c : Nat} (hl : l ∈ L) (hc : c ∈ l) :
    c ∈ joinNL L := by
  induction L with
  | nil => simp at hl
  | cons l0 ls ih =>
    cases ls with
    | nil =>
      rw [List.mem_singleton] at hl
      subst hl
      simpa [joinNL] using hc
    | cons l2 ls2 =>
      rw [joinNL]
      rcases List.mem_cons.mp hl with rfl | hl'
      · exact List.mem_append.mpr (Or.inl hc)
      · exact List.mem_append.mpr (Or.inr (List.mem_cons.mpr (Or.inr (ih hl'))))

theorem filter_joinNL (p : Nat → Bool) (hp : p 10 = false) (L : List Str) :
    (joinNL L).filter p = (L.map (List.filter p)).flatten := by
  induction L with
  | nil => rfl
  | cons l0 ls ih =>
    cases ls with
    | nil => simp [joinNL]
    | cons l2 ls2 =>
      rw [joinNL, List.filter_append, List.filter_cons, hp, ih]
      simp

theorem flatten_filter_nonEmpty (L : List Str) :
    (L.filter (fun c => !c.isEmpty)).flatten = L.flatten := by
  induction L with
  | nil => rfl
  | cons l ls ih =>
    rw [List.filter_cons]
    by_cases h : l.isEmpty
    · rw [List.isEmpty_iff] at h
      subst h
      simpa using ih
    · have hb : (!l.isEmpty) = true := by simp [h]
      rw [hb]
      simp [ih]

theorem flatten_map_strip_sublist (L : List Str) :
    ((L.map strip).flatten).Sublist L.flatten := by
  induction L with
  | nil => exact List.Sublist.refl []
  | cons l ls ih =>
    simp only [List.map_cons, List.flatten_cons]
    exact (strip_sublist l).append ih

theorem filter_flatten_map_strip (L : List Str) :
    ((L.map strip).flatten).filter (fun c => !isSpace c) =
      L.flatten.filter (fun c => !isSpace c) := by
  rw [List.filter_flatten, List.filter_flatten, List.map_map]
  congr 1
  apply List.map_congr_left
  intro l _
  exact filter_strip l

/-! Facts about `chunksOf`. -/

theorem chunksOfFuel_flatten {n : Nat} (hn : 0 < n) :
    ∀ (fuel : Nat) (l : Str), l.length ≤ fuel → (chunksOfFuel n fuel l).flatten = l := by
  intro fuel
  induction fuel with
  | zero =>
    intro l hl
    rw [Nat.le_zero, List.length_eq_zero] at hl
    subst hl
    rfl
  | succ fuel ih =>
    intro l hl
    cases l with
    | nil => rfl
    | cons c rest =>
      simp only [List.length_cons] at hl
      rw [chunksOfFuel, List.flatten_cons]
      rw [ih (rest.drop (n - 1)) (by simp only [List.length_drop]; omega)]
      obtain ⟨m, rfl⟩ : ∃ m, n = m + 1 := ⟨n - 1, by omega⟩
      rw [List.take_cons (by omega)]
      simp [List.take_append_drop]

theorem chunksOf_flatten {n : Nat} (hn : 0 < n) (l : Str) : (chunksOf n l).flatten = l :=
  chunksOfFuel_flatten hn l.length l le_rfl

theorem chunksOfFuel_length {n : Nat} (hn : 0 < n) :
    ∀ (fuel : Nat) (l : Str), l.length ≤ fuel →
      (chunksOfFuel n fuel l).length = (l.length + n - 1) / n := by
  intro fuel
  induction fuel with
  | zero =>
    intro l hl
    rw [Nat.le_zero, List.length_eq_zero] at hl
    subst hl
    have h0 : (([] : Str).length + n - 1) / n = 0 := by
      simp only [List.length_nil, Nat.zero_add]
      exact Nat.div_eq_of_lt (by omega)
    rw [h0]
    rfl
  | succ fuel ih =>
    intro l hl
    cases l with
    | nil =>
      have h0 : (([] : Str).length + n - 1) / n = 0 := by
        simp only [List.length_nil, Nat.zero_add]
        exact Nat.div_eq_of_lt (by omega)
      rw [h0]
      rfl
    | cons c rest =>
      simp only [List.length_cons] at hl
      rw [chunksOfFuel, List.length_cons,
        ih (rest.drop (n - 1)) (by simp only [List.length_drop]; omega)]
      rw [List.length_drop]
      rcases Nat.lt_or_ge rest.length (n - 1 + 1) with hlt | hge
      · have h1 : rest.length - (n - 1) = 0 := by omega
        rw [h1]
        have h2 : (0 + n - 1) / n = 0 := Nat.div_eq_of_lt (by omega)
        rw [h2]
        have h3 : (c :: rest).length + n - 1 = rest.length + n := by
          simp only [List.length_cons]
          omega
        rw [h3, Nat.add_div_right _ hn, Nat.div_eq_of_lt (by omega)]
      · have h1 : rest.length - (n - 1) + n - 1 = rest.length := by omega
        rw [h1]
        have h3 : (c :: rest).length + n - 1 = rest.length + n := by
          simp only [List.length_cons]
          omega
        rw [h3, Nat.add_div_right _ hn]

theorem chunksOf_length {n : Nat} (hn : 0 < n) (l : Str) :
    (chunksOf n l).length = (l.length + n - 1) / n :=
  chunksOfFuel_length hn l.length l le_rfl

theorem length_le_of_mem_chunksOfFuel {n : Nat} :
    ∀ {fuel : Nat} {l p : Str}, p ∈ chunksOfFuel n fuel l → p.length ≤ n := by
  intro fuel
  induction fuel with
  | zero =>
    intro l p hp
    cases l <;> simp [chunksOfFuel] at hp
  | succ fuel ih =>
    intro l p hp
    cases l with
    | nil => simp [chunksOfFuel] at hp
    | cons c rest =>
      rw [chunksOfFuel] at hp
      rcases List.mem_cons.mp hp with rfl | hp'
      · rw [List.length_take]
        omega
      · exact ih hp'

theorem length_le_of_mem_chunksOf {n : Nat} {l p : Str} (hp : p ∈ chunksOf n l) :
    p.length ≤ n :=
  length_le_of_mem_chunksOfFuel hp

/-! Facts about `firstIdx`. -/

theorem firstIdx_eq_none_iff {p : Str → Bool} {ls : List Str} :
    firstIdx p ls = none ↔ ∀ l ∈ ls, p l = false := by
  induction ls with
  | nil => simp [firstIdx]
  | cons l0 ls ih =>
    rw [firstIdx]
    by_cases h0 : p l0
    · simp [h0]
    · rw [if_neg h0]
      simp only [Option.map_eq_none', ih]
      constructor
      · intro h l hl
        rcases List.mem_cons.mp hl with rfl | hl'
        · simpa using h0
        · exact h l hl'
      · intro h l hl
        exact h l (List.mem_cons.mpr (Or.inr hl))

theorem firstIdx_eq_some {p : Str → Bool} :
    ∀ {ls : List Str} {j : Nat} {lj : Str},
      (∀ l ∈ ls.take j, p l = false) → (ls.drop j).head? = some lj → p lj = true →
      firstIdx p ls = some j := by
  intro ls
  induction ls with
  | nil =>
    intro j lj _ hhead _
    simp at hhead
  | cons l0 ls ih =>
    intro j lj htake hhead hpj
    cases j with
    | zero =>
      simp only [List.drop_zero, List.head?_cons, Option.some.injEq] at hhead
      subst hhead
      rw [firstIdx, if_pos hpj]
    | succ j =>
      have h0 : p l0 = false := htake l0 (by simp)
      rw [firstIdx, if_neg (by simp [h0])]
      rw [ih (fun l hl => htake l (by simpa using Or.inr hl)) (by simpa using hhead) hpj]
      rfl

/-! Facts about the marker predicates. -/

theorem isAuthorMarker_head_nonspace {line : Str} (h : isAuthorMarker line = true) :
    ∃ c t, line = c :: t ∧ isSpace c = false := by
  have key : ∀ t0 : Str, line.map pyLower = 1072 :: t0 →
      ∃ c t, line = c :: t ∧ isSpace c = false := by
    intro t0 ht
    cases line with
    | nil => simp at ht
    | cons c rest =>
      refine ⟨c, rest, rfl, ?_⟩
      simp only [List.map_cons, List.cons.injEq] at ht
      rcases pyLower_eq_author_head ht.1 with rfl | rfl <;> decide
  rw [isAuthorMarker, Bool.or_eq_true] at h
  rcases h with h | h
  · obtain ⟨t0, ht0, _⟩ := startsWith_cons (by simpa [authorPre1] using h)
    exact key t0 ht0
  · obtain ⟨t0, ht0, _⟩ := startsWith_cons (by simpa [authorPre2] using h)
    exact key t0 ht0

theorem isAnswerMarker_nonspace_mem {line : Str} (h : isAnswerMarker line = true) :
    ∃ c, c ∈ line ∧ isSpace c = false := by
  rw [isAnswerMarker] at h
  obtain ⟨t0, ht0, _⟩ := startsWith_cons (by simpa [answerPre] using h)
  refine ⟨1054, ?_, by decide⟩
  exact (strip_sublist line).mem (by rw [ht0]; simp)

/-! Facts about `afterLastMarker`. -/

theorem afterLastMarker_append_marker {ls : List Str} {l : Str}
    (h : isAuthorMarker l = true) : afterLastMarker (ls ++ [l]) = [] := by
  unfold afterLastMarker
  rw [List.reverse_append]
  simp [List.takeWhile_cons, h]

theorem afterLastMarker_append_nonmarker {ls : List Str} {l : Str}
    (h : isAuthorMarker l = false) :
    afterLastMarker (ls ++ [l]) = afterLastMarker ls ++ [l] := by
  unfold afterLastMarker
  rw [List.reverse_append]
  simp [List.takeWhile_cons, h]

theorem afterLastMarker_of_no_marker {ls : List Str}
    (h : ∀ l ∈ ls, isAuthorMarker l = false) : afterLastMarker ls = ls := by
  unfold afterLastMarker
  rw [List.takeWhile_eq_self_iff.mpr, List.reverse_reverse]
  intro x hx
  simp [h x (List.mem_reverse.mp hx)]

/-! The block-parse loop invariant. -/

theorem parse_foldl_inv (lines : List Str) :
    ((lines.foldl parseStep ⟨[], []⟩).blocks).length = lines.countP isAuthorMarker ∧
    (lines.foldl parseStep ⟨[], []⟩).current = afterLastMarker lines := by
  induction lines using List.reverseRecOn with
  | nil => exact ⟨rfl, rfl⟩
  | append_singleton ls l ih =>
    obtain ⟨ih1, ih2⟩ := ih
    rw [List.foldl_append, List.foldl_cons, List.foldl_nil]
    by_cases hm : isAuthorMarker l = true
    · constructor
      · have hne : strip (joinNL ((ls.foldl parseStep ⟨[], []⟩).current ++ [l])) ≠ [] := by
          obtain ⟨c, t, hl, hc⟩ := isAuthorMarker_head_nonspace hm
          refine strip_ne_nil_of_mem ?_ hc
          exact mem_joinNL (l := l) (by simp) (by rw [hl]; simp)
        simp only [parseStep, if_pos hm, if_neg hne, List.length_append, ih1,
          List.countP_append]
        simp [List.countP_cons, hm]
      · simp only [parseStep, if_pos hm]
        rw [afterLastMarker_append_marker hm]
    · have hm' : isAuthorMarker l = false := by simpa using hm
      constructor
      · simp only [parseStep, if_neg hm, ih1, List.countP_append]
        simp [List.countP_cons, hm']
      · simp only [parseStep, if_neg hm]
        rw [ih2, afterLastMarker_append_nonmarker hm']

theorem parseBlocks_length (content : Str) :
    (parseBlocks content).length =
      (splitlinesNoKeep content).countP isAuthorMarker +
      (if strip (joinNL (afterLastMarker (splitlinesNoKeep content))) = [] then 0 else 1) := by
  obtain ⟨h1, h2⟩ := parse_foldl_inv (splitlinesNoKeep content)
  rw [parseBlocks]
  simp only [List.length_append, h1, h2]
  by_cases h : strip (joinNL (afterLastMarker (splitlinesNoKeep content))) = []
  · rw [if_pos h, if_pos h]
    rfl
  · rw [if_neg h, if_neg h]
    rfl

theorem filter_joinNL_splitlinesNoKeep (t : Str) :
    (joinNL (splitlinesNoKeep t)).filter (fun c => !isSpace c) =
      t.filter (fun c => !isSpace c) := by
  rw [filter_joinNL _ (by decide), splitlinesNoKeep, List.map_map]
  have hcomp : ∀ l : Str,
      (List.filter (fun c => !isSpace c) ∘ removeEol) l = List.filter (fun c => !isSpace c) l := by
    intro l
    exact filter_removeEol _ (fun c hc => by simp [isLineBreak_isSpace hc]) l
  rw [List.map_congr_left (fun l _ => hcomp l), ← List.filter_flatten,
    flatten_splitlinesKeepends]

theorem parseBlocks_eq_nil_iff (content : Str) :
    parseBlocks content = [] ↔ ∀ c ∈ content, isSpace c = true := by
  constructor
  · intro h
    have hlen := parseBlocks_length content
    rw [h, List.length_nil] at hlen
    by_cases ht : strip (joinNL (afterLastMarker (splitlinesNoKeep content))) = []
    · rw [if_pos ht] at hlen
      have hcount : (splitlinesNoKeep content).countP isAuthorMarker = 0 := by omega
      have hnom : ∀ l ∈ splitlinesNoKeep content, isAuthorMarker l = false := by
        intro l hl
        have := List.countP_eq_zero.mp hcount l hl
        simpa using this
      rw [afterLastMarker_of_no_marker hnom] at ht
      intro c hc
      by_contra hcs
      have hcs' : isSpace c = false := by simpa using hcs
      have hmem : c ∈ (joinNL (splitlinesNoKeep content)).filter (fun c => !isSpace c) := by
        rw [filter_joinNL_splitlinesNoKeep]
        exact List.mem_filter.mpr ⟨hc, by simp [hcs']⟩
      obtain ⟨hc2, _⟩ := List.mem_filter.mp hmem
      have := strip_eq_nil_iff.mp ht c hc2
      rw [this] at hcs'
      simp at hcs'
    · rw [if_neg ht] at hlen
      omega
  · intro h
    rw [← List.length_eq_zero, parseBlocks_length]
    have hnom : ∀ l ∈ splitlinesNoKeep content, isAuthorMarker l = false := by
      intro l hl
      by_contra hm
      have hm' : isAuthorMarker l = true := by simpa using hm
      obtain ⟨c, t, hlc, hcs⟩ := isAuthorMarker_head_nonspace hm'
      have hcmem : c ∈ content := mem_of_mem_splitlinesNoKeep hl (by rw [hlc]; simp)
      rw [h c hcmem] at hcs
      simp at hcs
    rw [afterLastMarker_of_no_marker hnom]
    have hcount : (splitlinesNoKeep content).countP isAuthorMarker = 0 :=
      List.countP_eq_zero.mpr (fun l hl => by simp [hnom l hl])
    have hstrip : strip (joinNL (splitlinesNoKeep content)) = [] := by
      rw [strip_eq_nil_iff]
      intro c hcj
      by_contra hcs
      have hcs' : isSpace c = false := by simpa using hcs
      have hmem : c ∈ (joinNL (splitlinesNoKeep content)).filter (fun c => !isSpace c) :=
        List.mem_filter.mpr ⟨hcj, by simp [hcs']⟩
      rw [filter_joinNL_splitlinesNoKeep] at hmem
      obtain ⟨hc2, _⟩ := List.mem_filter.mp hmem
      have := h c hc2
      rw [this] at hcs'
      simp at hcs'
    rw [hcount, hstrip]
    simp

/-! The greedy-packing loop invariant of the segmenter. -/

theorem segStep_inv {max_len : Nat} (hm : 0 < max_len) (st : SegState) (line : Str)
    (prev : Str) (segs : List Str)
    (h1 : st.chunks = segs.map strip)
    (h2 : segs.flatten ++ st.current.flatten = prev)
    (h3 : st.current_len = st.current.flatten.length)
    (h4 : st.current_len ≤ max_len)
    (h5 : ∀ s ∈ segs, s.length ≤ max_len) :
    ∃ segs2 : List Str,
      (segStep max_len st line).chunks = segs2.map strip ∧
      segs2.flatten ++ (segStep max_len st line).current.flatten = prev ++ line ∧
      (segStep max_len st line).current_len =
        (segStep max_len st line).current.flatten.length ∧
      (segStep max_len st line).current_len ≤ max_len ∧
      ∀ s ∈ segs2, s.length ≤ max_len := by
  by_cases hb1 : max_len < line.length
  · by_cases hcur : st.current = []
    · refine ⟨segs ++ chunksOf max_len line, ?_, ?_, ?_, ?_, ?_⟩
      · simp only [segStep, if_pos hb1, if_pos hcur, h1, List.map_append]
      · simp only [segStep, if_pos hb1]
        rw [List.flatten_append, chunksOf_flatten hm]
        rw [hcur] at h2
        simp only [List.flatten_nil, List.append_nil] at h2
        simp [h2]
      · simp only [segStep, if_pos hb1]
        rfl
      · simp only [segStep, if_pos hb1]
        exact Nat.zero_le _
      · intro s hs
        rcases List.mem_append.mp hs with hs | hs
        · exact h5 s hs
        · exact length_le_of_mem_chunksOf hs
    · refine ⟨segs ++ [st.current.flatten] ++ chunksOf max_len line, ?_, ?_, ?_,
        ?_, ?_⟩
      · simp only [segStep, if_pos hb1, if_neg hcur, h1, List.map_append]
        simp
      · simp only [segStep, if_pos hb1]
        rw [List.flatten_append, List.flatten_append, chunksOf_flatten hm]
        simp only [List.flatten_cons, List.flatten_nil, List.append_nil,
          List.flatten_nil]
        rw [h2]
      · simp only [segStep, if_pos hb1]
        rfl
      · simp only [segStep, if_pos hb1]
        exact Nat.zero_le _
      · intro s hs
        rcases List.mem_append.mp hs with hs | hs
        · rcases List.mem_append.mp hs with hs | hs
          · exact h5 s hs
          · rw [List.mem_singleton] at hs
            subst hs
            rw [← h3]
            exact h4
        · exact length_le_of_mem_chunksOf hs
  · by_cases hb2 : max_len < st.current_len + line.length
    · refine ⟨segs ++ [st.current.flatten], ?_, ?_, ?_, ?_, ?_⟩
      · simp only [segStep, if_neg hb1, if_pos hb2, h1, List.map_append]
        simp
      · simp only [segStep, if_neg hb1, if_pos hb2]
        rw [List.flatten_append]
        simp only [List.flatten_cons, List.flatten_nil, List.append_nil]
        rw [h2]
      · simp only [segStep, if_neg hb1, if_pos hb2]
        simp
      · simp only [segStep, if_neg hb1, if_pos hb2]
        omega
      · intro s hs
        rcases List.mem_append.mp hs with hs | hs
        · exact h5 s hs
        · rw [List.mem_singleton] at hs
          subst hs
          rw [← h3]
          exact h4
    · refine ⟨segs, ?_, ?_, ?_, ?_, h5⟩
      · simp only [segStep, if_neg hb1, if_neg hb2, h1]
      · simp only [segStep, if_neg hb1, if_neg hb2]
        rw [List.flatten_append]
        simp only [List.flatten_cons, List.flatten_nil, List.append_nil]
        rw [← h2]
        simp [List.append_assoc]
      · simp only [segStep, if_neg hb1, if_neg hb2]
        rw [List.flatten_append]
        simp only [List.flatten_cons, List.flatten_nil, List.append_nil]
        rw [h3]
        simp
      · simp only [segStep, if_neg hb1, if_neg hb2]
        omega

theorem seg_foldl_inv {max_len : Nat} (hm : 0 < max_len) (lines : List Str) :
    ∃ segs : List Str,
      (lines.foldl (segStep max_len) ⟨[], [], 0⟩).chunks = segs.map strip ∧
      segs.flatten ++ (lines.foldl (segStep max_len) ⟨[], [], 0⟩).current.flatten =
        lines.flatten ∧
      (lines.foldl (segStep max_len) ⟨[], [], 0⟩).current_len =
        (lines.foldl (segStep max_len) ⟨[], [], 0⟩).current.flatten.length ∧
      (lines.foldl (segStep max_len) ⟨[], [], 0⟩).current_len ≤ max_len ∧
      ∀ s ∈ segs, s.length ≤ max_len := by
  induction lines using List.reverseRecOn with
  | nil => exact ⟨[], rfl, rfl, rfl, Nat.zero_le _, by simp⟩
  | append_singleton ls l ih =>
    obtain ⟨segs, h1, h2, h3, h4, h5⟩ := ih
    rw [List.foldl_append, List.foldl_cons, List.foldl_nil]
    obtain ⟨segs2, g1, g2, g3, g4, g5⟩ := segStep_inv hm _ l _ segs h1 h2 h3 h4 h5
    refine ⟨segs2, g1, ?_, g3, g4, g5⟩
    rw [g2]
    simp [List.flatten_append]

theorem split_message_chunks_spec {text : Str} {max_len : Nat} (hm : 0 < max_len)
    (hlen : max_len < text.length) :
    ∃ segs : List Str,
      split_message_chunks text max_len = (segs.map strip).filter (fun c => !c.isEmpty) ∧
      segs.flatten = text ∧ ∀ s ∈ segs, s.length ≤ max_len := by
  obtain ⟨segs, h1, h2, h3, h4, h5⟩ := seg_foldl_inv hm (splitlinesKeepends text)
  rw [flatten_splitlinesKeepends] at h2
  rw [split_message_chunks, if_neg (by omega)]
  simp only []
  by_cases hcur :
      ((splitlinesKeepends text).foldl (segStep max_len) ⟨[], [], 0⟩).current = []
  · refine ⟨segs, ?_, ?_, h5⟩
    · rw [if_pos hcur, h1]
    · rw [hcur] at h2
      simpa using h2
  · refine ⟨segs ++
      [((splitlinesKeepends text).foldl (segStep max_len) ⟨[], [], 0⟩).current.flatten],
      ?_, ?_, ?_⟩
    · rw [if_neg hcur, h1, List.map_append]
      simp
    · rw [List.flatten_append]
      simpa using h2
    · intro s hs
      rcases List.mem_append.mp hs with hs | hs
      · exact h5 s hs
      · rw [List.mem_singleton] at hs
        subst hs
        rw [← h3]
        exact h4

theorem map_pyLower_idem (l : Str) : (l.map pyLower).map pyLower = l.map pyLower := by
  rw [List.map_map]
  apply List.map_congr_left
  intro c _
  exact pyLower_pyLower c

/-! Claim theorems. -/

/-- C1 counterexample: the claim fails as stated.  For the empty input text
and maximum length 5 the fast path of `split_message_chunks` returns the
input itself as a single chunk, so the empty string is a returned chunk. -/
theorem C1_counterexample :
    0 < 5 ∧ ([] : Str) ∈ split_message_chunks ([] : Str) 5 :=
  ⟨by decide, by decide⟩

/-- C1 (amended): for every non-empty input text and positive maximum
length, every chunk returned by `split_message_chunks` has length at most
the maximum, no chunk is the empty string, and the concatenation of the
chunks in order is a subsequence of the input (chunks appear in source
order, nothing is duplicated). -/
theorem C1_segmenter_bounds (text : Str) (M : Nat) (hM : 0 < M) (hne : text ≠ []) :
    (∀ c ∈ split_message_chunks text M, c.length ≤ M ∧ c ≠ []) ∧
    (split_message_chunks text M).flatten.Sublist text := by
  by_cases hfast : text.length ≤ M
  · rw [split_message_chunks, if_pos hfast]
    constructor
    · intro c hc
      rw [List.mem_singleton] at hc
      subst hc
      exact ⟨hfast, hne⟩
    · simp
  · obtain ⟨segs, h1, h2, h3⟩ := split_message_chunks_spec hM (show M < text.length by omega)
    constructor
    · intro c hc
      rw [h1] at hc
      obtain ⟨hcm, hcne⟩ := List.mem_filter.mp hc
      obtain ⟨s, hsm, rfl⟩ := List.mem_map.mp hcm
      refine ⟨le_trans (strip_length_le s) (h3 s hsm), ?_⟩
      simpa using hcne
    · rw [h1, flatten_filter_nonEmpty, ← h2]
      exact flatten_map_strip_sublist segs

/-- C1 witness: the amended claim instantiated at the one-character text
with maximum length 1. -/
theorem C1_witness :
    (∀ c ∈ split_message_chunks [97] 1, c.length ≤ 1 ∧ c ≠ []) ∧
    (split_message_chunks [97] 1).flatten.Sublist [97] :=
  C1_segmenter_bounds [97] 1 (by decide) (by decide)

/-- C9: for every text and positive maximum length, concatenating the
returned chunks in order yields a subsequence of the source text (nothing
duplicated or reordered) whose non-whitespace characters are exactly the
non-whitespace characters of the source, in order (only boundary
whitespace is dropped). -/
theorem C9_concat_reproduces (text : Str) (M : Nat) (hM : 0 < M) :
    (split_message_chunks text M).flatten.Sublist text ∧
    (split_message_chunks text M).flatten.filter (fun c => !isSpace c) =
      text.filter (fun c => !isSpace c) := by
  by_cases hfast : text.length ≤ M
  · rw [split_message_chunks, if_pos hfast]
    constructor
    · simp
    · simp
  · obtain ⟨segs, h1, h2, h3⟩ := split_message_chunks_spec hM (show M < text.length by omega)
    rw [h1, flatten_filter_nonEmpty]
    constructor
    · rw [← h2]
      exact flatten_map_strip_sublist segs
    · rw [← h2]
      exact filter_flatten_map_strip segs

/-- C9 witness: the claim instantiated at a three-line text with maximum
length 2. -/
theorem C9_witness :
    (split_message_chunks [97, 10, 98, 98, 10, 99] 2).flatten.Sublist
      [97, 10, 98, 98, 10, 99] ∧
    (split_message_chunks [97, 10, 98, 98, 10, 99] 2).flatten.filter
      (fun c => !isSpace c) =
      ([97, 10, 98, 98, 10, 99] : Str).filter (fun c => !isSpace c) :=
  C9_concat_reproduces [97, 10, 98, 98, 10, 99] 2 (by decide)

/-- C10: a text consisting only of whitespace whose length exceeds the
(positive) maximum chunk length yields the empty chunk list, so a
non-empty input can produce zero chunks. -/
theorem C10_whitespace_empty (text : Str) (M : Nat) (hM : 0 < M)
    (hlen : M < text.length) (hws : ∀ c ∈ text, isSpace c = true) :
    split_message_chunks text M = [] := by
  obtain ⟨segs, h1, h2, h3⟩ := split_message_chunks_spec hM hlen
  rw [h1, List.filter_eq_nil_iff.mpr]
  intro a ha
  obtain ⟨s, hsm, rfl⟩ := List.mem_map.mp ha
  have hall : ∀ c ∈ s, isSpace c = true := by
    intro c hc
    apply hws
    rw [← h2]
    exact List.mem_flatten.mpr ⟨s, hsm, hc⟩
  rw [strip_eq_nil_iff.mpr hall]
  simp

/-- C10 witness: a three-character whitespace text with maximum length 2
yields no chunks. -/
theorem C10_witness : split_message_chunks [32, 32, 10] 2 = [] :=
  C10_whitespace_empty [32, 32, 10] 2 (by decide) (by decide) (by decide)

/-- C6 counterexample: the claim fails as stated.  The text consisting of
the single line `"ab\n"` has length 3 exceeding the maximum 2, and
`ceil(3 / 2) = 2`, but only one chunk is emitted: the slice holding the
trailing newline strips to the empty string and is filtered out. -/
theorem C6_counterexample :
    splitlinesKeepends [97, 98, 10] = [[97, 98, 10]] ∧
    2 < ([97, 98, 10] : Str).length ∧
    (([97, 98, 10] : Str).length + 2 - 1) / 2 = 2 ∧
    (split_message_chunks [97, 98, 10] 2).length = 1 :=
  ⟨by decide, by decide, by decide, by decide⟩

/-- C6 (amended): for a text forming a single line whose length exceeds
the positive maximum length, the segmenter emits at most
`ceil(length / max)` chunks, and exactly that many if and only if every
slice of the line contains a non-whitespace character (slices that strip
to the empty string are dropped by the final filter). -/
theorem C6_oversized_line_chunks (text : Str) (M : Nat) (hM : 0 < M)
    (hline : splitlinesKeepends text = [text]) (hlen : M < text.length) :
    (split_message_chunks text M).length ≤ (text.length + M - 1) / M ∧
    ((split_message_chunks text M).length = (text.length + M - 1) / M ↔
      ∀ p ∈ chunksOf M text, strip p ≠ []) := by
  have hstep : segStep M ⟨[], [], 0⟩ text = ⟨(chunksOf M text).map strip, [], 0⟩ := by
    simp [segStep, if_pos hlen]
  have heq : split_message_chunks text M =
      ((chunksOf M text).map strip).filter (fun c => !c.isEmpty) := by
    rw [split_message_chunks, if_neg (by omega), hline]
    simp only [List.foldl_cons, List.foldl_nil]
    rw [hstep]
    simp
  rw [heq]
  constructor
  · calc (((chunksOf M text).map strip).filter (fun c => !c.isEmpty)).length
        ≤ ((chunksOf M text).map strip).length := List.length_filter_le _ _
      _ = (chunksOf M text).length := List.length_map _ _
      _ = (text.length + M - 1) / M := chunksOf_length hM text
  · constructor
    · intro hlenEq p hpm
      have hfl : (((chunksOf M text).map strip).filter (fun c => !c.isEmpty)).length =
          ((chunksOf M text).map strip).length := by
        rw [hlenEq, List.length_map, chunksOf_length hM]
      have hself := (List.filter_sublist _).eq_of_length hfl
      have hall := List.filter_eq_self.mp hself (strip p)
        (List.mem_map.mpr ⟨p, hpm, rfl⟩)
      simpa using hall
    · intro hps
      rw [List.filter_eq_self.mpr, List.length_map, chunksOf_length hM]
      intro a ha
      obtain ⟨p, hpm, rfl⟩ := List.mem_map.mp ha
      simpa using hps p hpm

/-- C6 witness: the amended claim instantiated at a five-letter line with
maximum length 2, where all three slices survive stripping. -/
theorem C6_witness :
    (split_message_chunks [97, 98, 99, 100, 101] 2).length =
      (([97, 98, 99, 100, 101] : Str).length + 2 - 1) / 2 :=
  (C6_oversized_line_chunks [97, 98, 99, 100, 101] 2 (by decide) (by decide)
    (by decide)).2.mpr (by decide)

/-- C2 counterexample: the claim fails as stated.  The corpus consisting
of a single space is non-empty and contains no marker line, yet the parser
returns zero blocks, not one: the trailing buffer strips to the empty
string and is discarded. -/
theorem C2_counterexample :
    ([32] : Str) ≠ [] ∧ (∀ l ∈ splitlinesNoKeep [32], isAuthorMarker l = false) ∧
    (parseBlocks [32]).length = 0 :=
  ⟨by decide, by decide, by decide⟩

/-- C2 (amended): with `k` the number of author-marker lines, the parser
returns `k + 1` blocks exactly when the text after the last marker strips
to something non-empty, in particular: `k` blocks when the corpus ends at
the last marker line, `k + 1` blocks when non-whitespace content follows
the last marker line, and (amended) exactly 1 block when the corpus has no
marker line and contains some non-whitespace character. -/
theorem C2_block_counts (content : Str) :
    (parseBlocks content).length =
      (splitlinesNoKeep content).countP isAuthorMarker +
      (if strip (joinNL (afterLastMarker (splitlinesNoKeep content))) = [] then 0
       else 1) ∧
    (∀ h : splitlinesNoKeep content ≠ [],
      isAuthorMarker ((splitlinesNoKeep content).getLast h) = true →
      (parseBlocks content).length = (splitlinesNoKeep content).countP isAuthorMarker) ∧
    ((∃ c ∈ joinNL (afterLastMarker (splitlinesNoKeep content)), isSpace c = false) →
      (parseBlocks content).length =
        (splitlinesNoKeep content).countP isAuthorMarker + 1) ∧
    ((∀ l ∈ splitlinesNoKeep content, isAuthorMarker l = false) →
      (∃ c ∈ content, isSpace c = false) →
      (parseBlocks content).length = 1) := by
  refine ⟨parseBlocks_length content, ?_, ?_, ?_⟩
  · intro h hm
    rw [parseBlocks_length content]
    have hafter : afterLastMarker (splitlinesNoKeep content) = [] := by
      calc afterLastMarker (splitlinesNoKeep content)
          = afterLastMarker ((splitlinesNoKeep content).dropLast ++
              [(splitlinesNoKeep content).getLast h]) := by
            rw [List.dropLast_append_getLast]
        _ = [] := afterLastMarker_append_marker hm
    rw [hafter, if_pos (show strip (joinNL ([] : List Str)) = [] from rfl)]
    omega
  · rintro ⟨c, hcm, hcs⟩
    rw [parseBlocks_length content, if_neg (strip_ne_nil_of_mem hcm hcs)]
  · rintro hnom ⟨c, hcm, hcs⟩
    rw [parseBlocks_length content]
    rw [List.countP_eq_zero.mpr (fun l hl => by simp [hnom l hl])]
    rw [afterLastMarker_of_no_marker hnom]
    have hne : strip (joinNL (splitlinesNoKeep content)) ≠ [] := by
      have hmem : c ∈ (joinNL (splitlinesNoKeep content)).filter
          (fun c => !isSpace c) := by
        rw [filter_joinNL_splitlinesNoKeep]
        exact List.mem_filter.mpr ⟨hcm, by simp [hcs]⟩
      obtain ⟨hcj, _⟩ := List.mem_filter.mp hmem
      exact strip_ne_nil_of_mem hcj hcs
    rw [if_neg hne]

/-- C2 witness: the amended claim instantiated at the one-letter corpus
with no marker line, which yields exactly one block. -/
theorem C2_witness :
    (∀ l ∈ splitlinesNoKeep [97], isAuthorMarker l = false) ∧
    (parseBlocks [97]).length = 1 :=
  ⟨by decide, (C2_block_counts [97]).2.2.2 (by decide) ⟨97, by decide, by decide⟩⟩

/-- C3: the parse stage fails with `EmptyCorpus` exactly when the corpus
is empty or all-whitespace, and any corpus with a non-whitespace character
yields the parsed block list instead. -/
theorem C3_empty_corpus_iff (content : Str) :
    (getQuestionBlocks content = .error .EmptyCorpus ↔
      ∀ c ∈ content, isSpace c = true) ∧
    ((∃ c ∈ content, isSpace c = false) →
      getQuestionBlocks content = .ok (parseBlocks content)) := by
  constructor
  · rw [getQuestionBlocks]
    by_cases h : parseBlocks content = []
    · rw [if_pos h]
      constructor
      · intro _
        exact (parseBlocks_eq_nil_iff content).mp h
      · intro _
        rfl
    · rw [if_neg h]
      constructor
      · intro hok
        exact absurd hok (by simp)
      · intro hall
        exact absurd ((parseBlocks_eq_nil_iff content).mpr hall) h
  · rintro ⟨c, hcm, hcs⟩
    rw [getQuestionBlocks]
    rw [if_neg]
    intro h
    have := (parseBlocks_eq_nil_iff content).mp h c hcm
    rw [this] at hcs
    simp at hcs

/-- C3 witness: the single-space corpus fails with `EmptyCorpus`. -/
theorem C3_witness : getQuestionBlocks [32] = .error .EmptyCorpus :=
  (C3_empty_corpus_iff [32]).1.mpr (by decide)

/-- C4: on a non-empty block list, a selected block longer than 10000
characters makes selection fail with `BlockTooLarge` and no block at all
is returned (the draw is not retried), while a selected block of length at
most 10000 is returned as drawn. -/
theorem C4_size_cap (blocks : List Str) (i : Fin blocks.length) :
    ((blocks.get i).length ≤ 10000 → selectBlock blocks i = .ok (blocks.get i)) ∧
    (10000 < (blocks.get i).length →
      selectBlock blocks i = .error .BlockTooLarge ∧
      ∀ b : Str, selectBlock blocks i ≠ .ok b) := by
  constructor
  · intro h
    rw [selectBlock]
    rw [if_neg (by omega)]
  · intro h
    rw [selectBlock]
    rw [if_pos h]
    exact ⟨rfl, fun b hb => Except.noConfusion hb⟩

/-- C4 witness: a 10001-character block is rejected with `BlockTooLarge`. -/
theorem C4_witness :
    selectBlock [List.replicate 10001 97] ⟨0, by decide⟩ = .error .BlockTooLarge :=
  ((C4_size_cap [List.replicate 10001 97] ⟨0, by decide⟩).2
    (by
      show 10000 < (List.replicate 10001 (97 : Nat)).length
      rw [List.length_replicate]
      omega)).1

/-- C5 counterexample: the claim fails as stated.  A line that is the
author marker preceded by one space satisfies the claim's condition (its
trimmed, case-normalized form starts with the author prefix) but is not
recognised, because the code lowercases without trimming; and a line that
is the answer marker in upper case satisfies the claim's condition (its
trimmed, case-normalized form starts with the case-normalized answer
prefix) but is not recognised, because the code trims without
case-normalizing. -/
theorem C5_counterexample :
    startsWith authorPre1 ((strip [32, 1072, 1074, 1090, 1086, 1088, 58]).map pyLower)
      = true ∧
    isAuthorMarker [32, 1072, 1074, 1090, 1086, 1088, 58] = false ∧
    startsWith (answerPre.map pyLower)
      ((strip [1054, 1058, 1042, 1045, 1058, 58]).map pyLower) = true ∧
    isAnswerMarker [1054, 1058, 1042, 1045, 1058, 58] = false :=
  ⟨by decide, by decide, by decide, by decide⟩

/-- C5 (amended): author-marker recognition holds exactly when the
case-normalized (but untrimmed) line starts with one of the two author
prefixes, and is insensitive to letter case; question- and answer-marker
recognition holds exactly when the trimmed (but not case-normalized) line
starts with the respective prefix, and is insensitive to surrounding
whitespace. -/
theorem C5_marker_recognition (line : Str) :
    (isAuthorMarker line = true ↔
      (startsWith authorPre1 (line.map pyLower) = true ∨
       startsWith authorPre2 (line.map pyLower) = true)) ∧
    isAuthorMarker (line.map pyLower) = isAuthorMarker line ∧
    (isQuestionStart line = true ↔ startsWith questionPre (strip line) = true) ∧
    isQuestionStart (strip line) = isQuestionStart line ∧
    (isAnswerMarker line = true ↔ startsWith answerPre (strip line) = true) ∧
    isAnswerMarker (strip line) = isAnswerMarker line := by
  refine ⟨?_, ?_, Iff.rfl, ?_, Iff.rfl, ?_⟩
  · rw [isAuthorMarker, Bool.or_eq_true]
  · rw [isAuthorMarker, isAuthorMarker, map_pyLower_idem]
  · rw [isQuestionStart, isQuestionStart, strip_strip]
  · rw [isAnswerMarker, isAnswerMarker, strip_strip]

/-- C5 witness: the upper-case author marker line is recognised, and
recognition is invariant under lowercasing it. -/
theorem C5_witness :
    isAuthorMarker ([1040, 1042, 1058, 1054, 1056, 58].map pyLower) =
      isAuthorMarker [1040, 1042, 1058, 1054, 1056, 58] ∧
    isAuthorMarker [1040, 1042, 1058, 1054, 1056, 58] = true :=
  ⟨(C5_marker_recognition [1040, 1042, 1058, 1054, 1056, 58]).2.1,
   (C5_marker_recognition [1040, 1042, 1058, 1054, 1056, 58]).1.mpr
     (Or.inl (by decide))⟩

/-- C7 counterexample: the claim fails as stated.  For the block
`"x\nВопрос\nОтвет: a"` the first answer-marker line is line 2, but the
returned question text is not the trimmed join of the lines before it:
the preamble line before the first question-marker line is discarded
first. -/
theorem C7_counterexample :
    firstIdx isAnswerMarker (splitlinesNoKeep
      [120, 10, 1042, 1086, 1087, 1088, 1086, 1089, 10,
       1054, 1090, 1074, 1077, 1090, 58, 32, 97]) = some 2 ∧
    (splitQuestion
      [120, 10, 1042, 1086, 1087, 1088, 1086, 1089, 10,
       1054, 1090, 1074, 1077, 1090, 58, 32, 97]).1 ≠
      strip (joinNL ((splitlinesNoKeep
        [120, 10, 1042, 1086, 1087, 1088, 1086, 1089, 10,
         1054, 1090, 1074, 1077, 1090, 58, 32, 97]).take 2)) :=
  ⟨by decide, by decide⟩

/-- C7 (amended): the question splitter first discards any lines before
the first question-marker line (keeping all lines when there is none);
then, writing `qls` for the remaining lines, if no line of `qls` is an
answer-marker line the result is the trimmed join of `qls` with an empty
spoiler, and if the first answer-marker line of `qls` is at position `j`
the question text is the trimmed join of the first `j` lines, the spoiler
text is the trimmed join of the rest and is non-empty; the splitter is a
total function, so no input fails. -/
theorem C7_split_question (block : Str) :
    ((∀ l ∈ splitlinesNoKeep block, isQuestionStart l = false) →
      questionLines block = splitlinesNoKeep block) ∧
    (∀ (i : Nat) (li : Str),
      (∀ l ∈ (splitlinesNoKeep block).take i, isQuestionStart l = false) →
      ((splitlinesNoKeep block).drop i).head? = some li → isQuestionStart li = true →
      questionLines block = (splitlinesNoKeep block).drop i) ∧
    ((∀ l ∈ questionLines block, isAnswerMarker l = false) →
      splitQuestion block = (strip (joinNL (questionLines block)), [])) ∧
    (∀ (j : Nat) (lj : Str),
      (∀ l ∈ (questionLines block).take j, isAnswerMarker l = false) →
      ((questionLines block).drop j).head? = some lj → isAnswerMarker lj = true →
      splitQuestion block = (strip (joinNL ((questionLines block).take j)),
        strip (joinNL ((questionLines block).drop j))) ∧
      strip (joinNL ((questionLines block).drop j)) ≠ []) := by
  refine ⟨?_, ?_, ?_, ?_⟩
  · intro h
    rw [questionLines]
    rw [firstIdx_eq_none_iff.mpr h]
  · intro i li htake hhead hq
    rw [questionLines]
    rw [firstIdx_eq_some htake hhead hq]
  · intro h
    rw [splitQuestion]
    rw [firstIdx_eq_none_iff.mpr h]
  · intro j lj htake hhead hm
    constructor
    · rw [splitQuestion]
      rw [firstIdx_eq_some htake hhead hm]
    · obtain ⟨c, hcm, hcs⟩ := isAnswerMarker_nonspace_mem hm
      have hljm : lj ∈ (questionLines block).drop j := by
        rcases hd : (questionLines block).drop j with _ | ⟨x, xs⟩
        · rw [hd] at hhead
          simp at hhead
        · rw [hd] at hhead
          simp only [List.head?_cons, Option.some.injEq] at hhead
          subst hhead
          exact List.mem_cons_self x xs
      exact strip_ne_nil_of_mem (mem_joinNL hljm hcm) hcs

/-- C7 witness: the amended claim instantiated at the block
`"Вопрос\nОтвет: a"`, split at its answer line. -/
theorem C7_witness :
    splitQuestion [1042, 1086, 1087, 1088, 1086, 1089, 10,
        1054, 1090, 1074, 1077, 1090, 58, 32, 97] =
      (strip (joinNL ((questionLines [1042, 1086, 1087, 1088, 1086, 1089, 10,
        1054, 1090, 1074, 1077, 1090, 58, 32, 97]).take 1)),
       strip (joinNL ((questionLines [1042, 1086, 1087, 1088, 1086, 1089, 10,
        1054, 1090, 1074, 1077, 1090, 58, 32, 97]).drop 1))) ∧
    strip (joinNL ((questionLines [1042, 1086, 1087, 1088, 1086, 1089, 10,
      1054, 1090, 1074, 1077, 1090, 58, 32, 97]).drop 1)) ≠ [] :=
  (C7_split_question [1042, 1086, 1087, 1088, 1086, 1089, 10,
      1054, 1090, 1074, 1077, 1090, 58, 32, 97]).2.2.2 1
    [1054, 1090, 1074, 1077, 1090, 58, 32, 97] (by decide) (by decide) (by decide)

/-- C8: the choice command fails with `InsufficientInput` exactly when
fewer than two names remain after comma-splitting, trimming and dropping
empties; otherwise the result is always one of the trimmed names of the
supplied list and never empty, and every such name is returned for some
draw. -/
theorem C8_choice (args : Str) (i : Nat) :
    (choiceResult args i = .error .InsufficientInput ↔
      (cleanNames (strip args)).length < 2) ∧
    (∀ name : Str, choiceResult args i = .ok name →
      name ∈ (splitComma (strip args)).map strip ∧ name ≠ []) ∧
    (2 ≤ (cleanNames (strip args)).length →
      ∀ name ∈ cleanNames (strip args), ∃ k, choiceResult args k = .ok name) := by
  refine ⟨?_, ?_, ?_⟩
  · rw [choiceResult]
    by_cases h : (cleanNames (strip args)).length < 2
    · rw [dif_pos h]
      simp [h]
    · rw [dif_neg h]
      simp [h]
  · intro name hok
    rw [choiceResult] at hok
    by_cases h : (cleanNames (strip args)).length < 2
    · rw [dif_pos h] at hok
      exact absurd hok (by simp)
    · rw [dif_neg h] at hok
      simp only [Except.ok.injEq] at hok
      subst hok
      have hmem := List.get_mem (cleanNames (strip args))
        (i % (cleanNames (strip args)).length) (Nat.mod_lt i (by omega))
      constructor
      · exact List.mem_of_mem_filter hmem
      · have hf := List.mem_filter.mp hmem
        simpa using hf.2
  · intro h2 name hn
    obtain ⟨idx, rfl⟩ := List.mem_iff_get.mp hn
    refine ⟨idx.val, ?_⟩
    rw [choiceResult]
    rw [dif_neg (by omega)]
    exact congrArg (fun f => Except.ok ((cleanNames (strip args)).get f))
      (Fin.ext (Nat.mod_eq_of_lt idx.isLt))

/-- C8 witness: for the input `"a, ,b"` the draw at index 0 returns the
trimmed name `"a"`, a member of the trimmed supplied list. -/
theorem C8_witness :
    choiceResult [97, 44, 32, 44, 98] 0 = .ok [97] ∧
    [97] ∈ (splitComma (strip [97, 44, 32, 44, 98])).map strip ∧ ([97] : Str) ≠ [] := by
  have h := (C8_choice [97, 44, 32, 44, 98] 0).2.1 [97] (by rfl)
  exact ⟨by rfl, h.1, h.2⟩
